import Mathlib

/-!
Verification of the chess-puzzle-solver search core (`src/main.py`).

The program's algorithmic core is a fixed-depth minimax search with
alpha-beta pruning (`minimax`), a material evaluator (`evaluate_board`,
`piece_value`) and a root-move selector (`make_best_move`).  Move legality,
move application/undo and terminal detection are services of an external
rules library (python-chess), which we model as an abstract `Rules`
structure; the search core only consumes this interface.

Scores: the Python code mixes integer material sums with the float
sentinels `float("-inf")` / `float("inf")`.  We model scores as
`WithBot (WithTop ℤ)`: integers extended with a bottom (`-inf`) and a top
(`+inf`) element, linearly ordered.

Mutation: the Python code mutates one shared board via `push`/`pop`.  We
give two embeddings: a pure one (`minimax`), where a child position is the
functional result of `Rules.push`, and a state-passing one (`minimaxSt`)
that threads the explicit board stack exactly as the Python code pushes
and pops, including on pruned branches.  The two are proved to agree.
-/

/-- Extended scores: integers together with `-inf` (`⊥`) and `+inf` (`⊤`),
matching the float sentinels used by the Python search. -/
abbrev Score : Type := WithBot (WithTop ℤ)

/-- Embed an integer material score into `Score`. -/
def toScore (z : ℤ) : Score := ((z : WithTop ℤ) : WithBot (WithTop ℤ))

theorem bot_lt_toScore (z : ℤ) : (⊥ : Score) < toScore z :=
  WithBot.bot_lt_coe _

theorem toScore_lt_top (z : ℤ) : toScore z < (⊤ : Score) := by
  rw [← WithBot.coe_top]
  exact WithBot.coe_lt_coe.mpr (WithTop.coe_lt_top z)

/-- The six chess piece kinds (`chess.PAWN`, …, `chess.KING`). -/
inductive PieceType : Type
  | pawn | knight | bishop | rook | queen | king
deriving DecidableEq

/-- A piece as the evaluator sees it: a kind and a colour.
`color = true` is `chess.WHITE` (python-chess encodes WHITE as True). -/
structure Piece : Type where
  piece_type : PieceType
  color : Bool
deriving DecidableEq

/-- `piece_value` from `src/main.py` lines 121–123:
`values[piece.piece_type] * (1 if piece.color == chess.WHITE else -1)`. -/
def piece_value (piece : Piece) : ℤ :=
  (match piece.piece_type with
    | .pawn => 1
    | .knight => 3
    | .bishop => 3
    | .rook => 5
    | .queen => 9
    | .king => 0) *
  (if piece.color = true then 1 else -1)

/-- The Rules Oracle interface consumed by the search core (spec §6):
legal-move enumeration, functional move application, terminal test, and
the piece map used by the evaluator.  `undo_last` is modelled by the
explicit board stack of `BoardState` below, so it needs no field here. -/
structure Rules (P M : Type) : Type where
  legal_moves : P → List M
  push : P → M → P
  is_game_over : P → Bool
  piece_map : P → List Piece

variable {P M : Type}

/-- `evaluate_board` from `src/main.py` lines 118–119:
`sum(piece_value(piece) for piece in board.piece_map().values())`. -/
def evaluate_board (R : Rules P M) (board : P) : ℤ :=
  ((R.piece_map board).map piece_value).sum

/-- The maximizing loop of `minimax` (`src/main.py` lines 95–104):
iterates over the legal moves, recursing on each child with the current
window, tracking `max_eval` and raising `alpha`, and breaking out of the
loop (pruning) as soon as `beta ≤ alpha`. -/
def maximizingLoop (rec : P → Score → Score → Score) (child : M → P) :
    List M → Score → Score → Score → Score
  | [], maxEval, _, _ => maxEval
  | m :: moves, maxEval, alpha, beta =>
    let ev := rec (child m) alpha beta
    let maxEval' := max maxEval ev
    let alpha' := max alpha ev
    if beta ≤ alpha' then maxEval'
    else maximizingLoop rec child moves maxEval' alpha' beta

/-- The minimizing loop of `minimax` (`src/main.py` lines 106–115):
dual of `maximizingLoop`, tracking `min_eval` and lowering `beta`. -/
def minimizingLoop (rec : P → Score → Score → Score) (child : M → P) :
    List M → Score → Score → Score → Score
  | [], minEval, _, _ => minEval
  | m :: moves, minEval, alpha, beta =>
    let ev := rec (child m) alpha beta
    let minEval' := min minEval ev
    let beta' := min beta ev
    if beta' ≤ alpha then minEval'
    else minimizingLoop rec child moves minEval' alpha beta'

/-- `minimax` from `src/main.py` lines 90–115, pure form.  If
`depth == 0 or board.is_game_over()` the static evaluation is returned;
otherwise the maximizing or minimizing loop runs over the legal moves with
initial accumulator `-inf` (resp. `+inf`). -/
def minimax (R : Rules P M) : P → Nat → Score → Score → Bool → Score
  | board, 0, _, _, _ => toScore (evaluate_board R board)
  | board, d + 1, alpha, beta, maximizing =>
    if R.is_game_over board then toScore (evaluate_board R board)
    else if maximizing then
      maximizingLoop (fun p a b => minimax R p d a b false) (R.push board)
        (R.legal_moves board) ⊥ alpha beta
    else
      minimizingLoop (fun p a b => minimax R p d a b true) (R.push board)
        (R.legal_moves board) ⊤ alpha beta

/-- `foldlMax f l a` folds `max` of `f` over `l` starting from `a`. -/
def foldlMax (f : M → Score) (l : List M) (a : Score) : Score :=
  l.foldl (fun acc m => max acc (f m)) a

/-- `foldlMin f l a` folds `min` of `f` over `l` starting from `a`. -/
def foldlMin (f : M → Score) (l : List M) (a : Score) : Score :=
  l.foldl (fun acc m => min acc (f m)) a

/-- Pruning-free full minimax over the identical legal-move enumeration:
the spec's reference point for alpha-beta equivalence (spec §8).  Same
base cases as `minimax`, but every child is explored and the node value is
the plain max (resp. min) of the child values. -/
def fullMinimax (R : Rules P M) : P → Nat → Bool → Score
  | board, 0, _ => toScore (evaluate_board R board)
  | board, d + 1, maximizing =>
    if R.is_game_over board then toScore (evaluate_board R board)
    else if maximizing then
      foldlMax (fun m => fullMinimax R (R.push board m) d false)
        (R.legal_moves board) ⊥
    else
      foldlMin (fun m => fullMinimax R (R.push board m) d true)
        (R.legal_moves board) ⊤

/-- The mutable board as the Python code sees it: the current position
together with the stack of positions saved by earlier pushes (python-chess
`board.push` records, `board.pop` restores the previous state exactly —
the §6 oracle contract). -/
structure BoardState (P : Type) : Type where
  cur : P
  hist : List P
deriving DecidableEq

/-- `board.push(move)`: apply a move, saving the current position. -/
def pushSt (R : Rules P M) (σ : BoardState P) (m : M) : BoardState P :=
  ⟨R.push σ.cur m, σ.cur :: σ.hist⟩

/-- `board.pop()`: restore the most recently saved position. -/
def popSt : BoardState P → BoardState P
  | ⟨_, p :: rest⟩ => ⟨p, rest⟩
  | ⟨c, []⟩ => ⟨c, []⟩

/-- State-passing maximizing loop: as `maximizingLoop`, but threading the
board stack through each `push`/recurse/`pop` triple, also when the loop
breaks on a pruned branch. -/
def maximizingLoopSt (R : Rules P M)
    (rec : BoardState P → Score → Score → Score × BoardState P) :
    BoardState P → List M → Score → Score → Score → Score × BoardState P
  | σ, [], maxEval, _, _ => (maxEval, σ)
  | σ, m :: moves, maxEval, alpha, beta =>
    let r := rec (pushSt R σ m) alpha beta
    let σ' := popSt r.2
    let maxEval' := max maxEval r.1
    let alpha' := max alpha r.1
    if beta ≤ alpha' then (maxEval', σ')
    else maximizingLoopSt R rec σ' moves maxEval' alpha' beta

/-- State-passing minimizing loop, dual of `maximizingLoopSt`. -/
def minimizingLoopSt (R : Rules P M)
    (rec : BoardState P → Score → Score → Score × BoardState P) :
    BoardState P → List M → Score → Score → Score → Score × BoardState P
  | σ, [], minEval, _, _ => (minEval, σ)
  | σ, m :: moves, minEval, alpha, beta =>
    let r := rec (pushSt R σ m) alpha beta
    let σ' := popSt r.2
    let minEval' := min minEval r.1
    let beta' := min beta r.1
    if beta' ≤ alpha then (minEval', σ')
    else minimizingLoopSt R rec σ' moves minEval' alpha beta'

/-- `minimax` from `src/main.py` lines 90–115 in state-passing form: the
board stack is threaded through every speculative `push`/`pop` pair and
returned alongside the score. -/
def minimaxSt (R : Rules P M) :
    BoardState P → Nat → Score → Score → Bool → Score × BoardState P
  | σ, 0, _, _, _ => (toScore (evaluate_board R σ.cur), σ)
  | σ, d + 1, alpha, beta, maximizing =>
    if R.is_game_over σ.cur then (toScore (evaluate_board R σ.cur), σ)
    else if maximizing then
      maximizingLoopSt R (fun τ a b => minimaxSt R τ d a b false) σ
        (R.legal_moves σ.cur) ⊥ alpha beta
    else
      minimizingLoopSt R (fun τ a b => minimaxSt R τ d a b true) σ
        (R.legal_moves σ.cur) ⊤ alpha beta

/-- The root-move selection loop of `make_best_move` (`src/main.py` lines
156–163): push each root move, search the child with the full window and
flag `side != chess.WHITE`, pop, and keep the move when
`(side == WHITE and value > best_value) or (side == BLACK and value < best_value)`. -/
def bestLoopSt (R : Rules P M) (side : Bool) (d : Nat) :
    BoardState P → List M → Option M → Score → (Option M × Score) × BoardState P
  | σ, [], best, bestValue => ((best, bestValue), σ)
  | σ, m :: moves, best, bestValue =>
    let r := minimaxSt R (pushSt R σ m) d ⊥ ⊤ (!side)
    let σ' := popSt r.2
    if (side && decide (bestValue < r.1)) || (!side && decide (r.1 < bestValue)) then
      bestLoopSt R side d σ' moves (some m) r.1
    else
      bestLoopSt R side d σ' moves best bestValue

/-- `make_best_move` from `src/main.py` lines 149–171.  Returns the pair
(Python return value, final board state).  The Python function returns
`None` on every path: the early `return` at line 151 and the implicit
fall-through return at the end both yield `None`; the chosen move is only
committed to the board (`board.push(best_move)`), never returned. -/
def make_best_move (R : Rules P M) (σ : BoardState P) (depth : Nat)
    (side : Bool) : Option M × BoardState P :=
  if R.is_game_over σ.cur then (none, σ)
  else
    let init : Score := if side then ⊥ else ⊤
    let r := bestLoopSt R side (depth - 1) σ (R.legal_moves σ.cur) none init
    match r.1.1 with
    | some mv => (none, pushSt R r.2 mv)
    | none => (none, r.2)

/-- A small concrete Rules Oracle used to exercise the development on
closed inputs: a position is a bag of pieces, a move removes one piece by
index, and the game is over when no pieces remain. -/
def toyRules : Rules (List Piece) Nat where
  legal_moves := fun b => List.range b.length
  push := fun b i => b.eraseIdx i
  is_game_over := fun b => b.isEmpty
  piece_map := fun b => b

/-- A white pawn, for concrete examples. -/
def wPawn : Piece := ⟨.pawn, true⟩

/-- A black queen, for concrete examples. -/
def bQueen : Piece := ⟨.queen, false⟩

theorem foldlMax_mono (f : M → Score) (l : List M) :
    ∀ {a b : Score}, a ≤ b → foldlMax f l a ≤ foldlMax f l b := by
  induction l with
  | nil => intro a b h; simpa [foldlMax] using h
  | cons m ms ih =>
    intro a b h
    simpa [foldlMax] using ih (max_le_max h le_rfl)

theorem le_foldlMax (f : M → Score) (l : List M) (a : Score) :
    a ≤ foldlMax f l a := by
  induction l generalizing a with
  | nil => simp [foldlMax]
  | cons m ms ih =>
    calc a ≤ max a (f m) := le_max_left _ _
    _ ≤ foldlMax f ms (max a (f m)) := ih _
    _ = foldlMax f (m :: ms) a := rfl

theorem foldlMax_max (f : M → Score) (l : List M) (a b : Score) :
    foldlMax f l (max a b) = max a (foldlMax f l b) := by
  induction l generalizing b with
  | nil => simp [foldlMax]
  | cons m ms ih =>
    show foldlMax f ms (max (max a b) (f m)) = max a (foldlMax f ms (max b (f m)))
    rw [max_assoc, ih]

theorem foldlMax_decomp (f : M → Score) (l : List M) (a : Score) :
    foldlMax f l a = max a (foldlMax f l ⊥) := by
  conv_lhs => rw [← max_eq_left (bot_le : (⊥ : Score) ≤ a), foldlMax_max]

theorem foldlMin_mono (f : M → Score) (l : List M) :
    ∀ {a b : Score}, a ≤ b → foldlMin f l a ≤ foldlMin f l b := by
  induction l with
  | nil => intro a b h; simpa [foldlMin] using h
  | cons m ms ih =>
    intro a b h
    simpa [foldlMin] using ih (min_le_min h le_rfl)

theorem foldlMin_le (f : M → Score) (l : List M) (a : Score) :
    foldlMin f l a ≤ a := by
  induction l generalizing a with
  | nil => simp [foldlMin]
  | cons m ms ih =>
    calc foldlMin f (m :: ms) a = foldlMin f ms (min a (f m)) := rfl
    _ ≤ min a (f m) := ih _
    _ ≤ a := min_le_left _ _

theorem foldlMin_min (f : M → Score) (l : List M) (a b : Score) :
    foldlMin f l (min a b) = min a (foldlMin f l b) := by
  induction l generalizing b with
  | nil => simp [foldlMin]
  | cons m ms ih =>
    show foldlMin f ms (min (min a b) (f m)) = min a (foldlMin f ms (min b (f m)))
    rw [min_assoc, ih]

theorem foldlMin_decomp (f : M → Score) (l : List M) (a : Score) :
    foldlMin f l a = min a (foldlMin f l ⊤) := by
  conv_lhs => rw [← min_eq_left (le_top : a ≤ (⊤ : Score)), foldlMin_min]

theorem popSt_pushSt (R : Rules P M) (σ : BoardState P) (m : M) :
    popSt (pushSt R σ m) = σ := rfl

theorem maximizingLoopSt_eq (R : Rules P M)
    (rec : BoardState P → Score → Score → Score × BoardState P)
    (recp : P → Score → Score → Score)
    (hrec : ∀ τ a b, rec τ a b = (recp τ.cur a b, τ)) :
    ∀ (σ : BoardState P) (l : List M) (acc alpha beta : Score),
      maximizingLoopSt R rec σ l acc alpha beta =
        (maximizingLoop recp (R.push σ.cur) l acc alpha beta, σ) := by
  intro σ l
  induction l generalizing σ with
  | nil => intro acc alpha beta; rfl
  | cons m ms ih =>
    intro acc alpha beta
    simp only [maximizingLoopSt, maximizingLoop, hrec, popSt_pushSt, pushSt]
    split
    · rfl
    · exact ih σ _ _ _

theorem minimizingLoopSt_eq (R : Rules P M)
    (rec : BoardState P → Score → Score → Score × BoardState P)
    (recp : P → Score → Score → Score)
    (hrec : ∀ τ a b, rec τ a b = (recp τ.cur a b, τ)) :
    ∀ (σ : BoardState P) (l : List M) (acc alpha beta : Score),
      minimizingLoopSt R rec σ l acc alpha beta =
        (minimizingLoop recp (R.push σ.cur) l acc alpha beta, σ) := by
  intro σ l
  induction l generalizing σ with
  | nil => intro acc alpha beta; rfl
  | cons m ms ih =>
    intro acc alpha beta
    simp only [minimizingLoopSt, minimizingLoop, hrec, popSt_pushSt, pushSt]
    split
    · rfl
    · exact ih σ _ _ _

/-- The state-passing search agrees with the pure one and restores the
board: `minimaxSt` returns the pure `minimax` score on the current
position, and the board state unchanged. -/
theorem minimaxSt_eq (R : Rules P M) :
    ∀ (d : Nat) (σ : BoardState P) (alpha beta : Score) (maximizing : Bool),
      minimaxSt R σ d alpha beta maximizing =
        (minimax R σ.cur d alpha beta maximizing, σ) := by
  intro d
  induction d with
  | zero => intro σ alpha beta maximizing; rfl
  | succ d ih =>
    intro σ alpha beta maximizing
    simp only [minimaxSt, minimax]
    split
    · rfl
    · split
      · exact maximizingLoopSt_eq R _ _ (fun τ a b => ih τ a b false) σ _ _ _ _
      · exact minimizingLoopSt_eq R _ _ (fun τ a b => ih τ a b true) σ _ _ _ _

theorem le_maximizingLoop (rec : P → Score → Score → Score) (child : M → P) :
    ∀ (l : List M) (maxEval alpha beta : Score),
      maxEval ≤ maximizingLoop rec child l maxEval alpha beta := by
  intro l
  induction l with
  | nil => intro maxEval alpha beta; exact le_rfl
  | cons m ms ih =>
    intro maxEval alpha beta
    simp only [maximizingLoop]
    split
    · exact le_max_left _ _
    · exact le_trans (le_max_left _ _) (ih _ _ _)

theorem minimizingLoop_le (rec : P → Score → Score → Score) (child : M → P) :
    ∀ (l : List M) (minEval alpha beta : Score),
      minimizingLoop rec child l minEval alpha beta ≤ minEval := by
  intro l
  induction l with
  | nil => intro minEval alpha beta; exact le_rfl
  | cons m ms ih =>
    intro minEval alpha beta
    simp only [minimizingLoop]
    split
    · exact min_le_left _ _
    · exact le_trans (ih _ _ _) (min_le_left _ _)

/-- Fail-soft alpha-beta specification: how a pruned search result `r`
relates to the true minimax value `v` of the same node under the window
`(alpha, beta)`.  A result at or below `alpha` is an upper bound on `v`, a
result at or above `beta` is a lower bound on `v`, and a result strictly
inside the window is exact. -/
def ABSpec (r v alpha beta : Score) : Prop :=
  (r ≤ alpha → v ≤ r) ∧ (beta ≤ r → r ≤ v) ∧ (alpha < r → r < beta → r = v)

theorem maximizingLoop_spec (rec : P → Score → Score → Score)
    (child : M → P) (F : P → Score) (beta : Score)
    (hrec : ∀ p a, a < beta → ABSpec (rec p a beta) (F p) a beta) :
    ∀ (l : List M) (maxEval alpha : Score), alpha < beta → maxEval ≤ alpha →
      ABSpec (maximizingLoop rec child l maxEval alpha beta)
        (foldlMax (fun m => F (child m)) l maxEval) alpha beta := by
  intro l
  induction l with
  | nil =>
    intro maxEval alpha _ _
    exact ⟨fun _ => le_rfl, fun _ => le_rfl, fun _ _ => rfl⟩
  | cons m ms ih =>
    intro maxEval alpha hab hma
    have hspec := hrec (child m) alpha hab
    set ev := rec (child m) alpha beta with hev_def
    set Fm := F (child m) with hFm_def
    have hw : foldlMax (fun x => F (child x)) (m :: ms) maxEval =
        foldlMax (fun x => F (child x)) ms (max maxEval Fm) := rfl
    rw [hw]
    show ABSpec
      (if beta ≤ max alpha ev then max maxEval ev
        else maximizingLoop rec child ms (max maxEval ev) (max alpha ev) beta)
      (foldlMax (fun x => F (child x)) ms (max maxEval Fm)) alpha beta
    by_cases hcut : beta ≤ max alpha ev
    · rw [if_pos hcut]
      have hbev : beta ≤ ev := by
        rcases le_max_iff.mp hcut with h | h
        · exact absurd h (not_le.mpr hab)
        · exact h
      have hevFm : ev ≤ Fm := hspec.2.1 hbev
      refine ⟨?_, ?_, ?_⟩
      · intro hra
        exact absurd (lt_of_lt_of_le hab (le_trans hbev (le_trans (le_max_right _ _) hra)))
          (lt_irrefl alpha)
      · intro _
        calc max maxEval ev ≤ max maxEval Fm := max_le_max le_rfl hevFm
        _ ≤ foldlMax (fun x => F (child x)) ms (max maxEval Fm) := le_foldlMax _ _ _
      · intro _ hrb
        exact absurd (lt_of_le_of_lt (le_trans hbev (le_max_right maxEval ev)) hrb)
          (lt_irrefl beta)
    · rw [if_neg hcut]
      have hab' : max alpha ev < beta := not_le.mp hcut
      have hma' : max maxEval ev ≤ max alpha ev := max_le_max hma le_rfl
      have IH := ih (max maxEval ev) (max alpha ev) hab' hma'
      set r := maximizingLoop rec child ms (max maxEval ev) (max alpha ev) beta with hr_def
      have hSdec : foldlMax (fun x => F (child x)) ms (max maxEval ev) =
          max (max maxEval ev) (foldlMax (fun x => F (child x)) ms ⊥) :=
        foldlMax_decomp _ _ _
      have hSdec' : foldlMax (fun x => F (child x)) ms (max maxEval Fm) =
          max (max maxEval Fm) (foldlMax (fun x => F (child x)) ms ⊥) :=
        foldlMax_decomp _ _ _
      by_cases hevA : ev ≤ alpha
      · have hFmEv : Fm ≤ ev := hspec.1 hevA
        have halpha' : max alpha ev = alpha := max_eq_left hevA
        rw [halpha'] at IH
        have hwmono : foldlMax (fun x => F (child x)) ms (max maxEval Fm) ≤
            foldlMax (fun x => F (child x)) ms (max maxEval ev) :=
          foldlMax_mono _ _ (max_le_max le_rfl hFmEv)
        refine ⟨?_, ?_, ?_⟩
        · intro hra
          exact le_trans hwmono (IH.1 hra)
        · intro hbr
          have hrw : r ≤ max (max maxEval ev) (foldlMax (fun x => F (child x)) ms ⊥) :=
            hSdec ▸ IH.2.1 hbr
          have hnot : ¬ r ≤ max maxEval ev := by
            intro h
            exact absurd (le_trans hbr (le_trans h (le_trans hma' (le_of_eq halpha'))))
              (not_le.mpr hab)
          have hrS : r ≤ foldlMax (fun x => F (child x)) ms ⊥ :=
            (le_max_iff.mp hrw).resolve_left hnot
          rw [hSdec']
          exact le_trans hrS (le_max_right _ _)
        · intro har hrb
          have hrw' : r = foldlMax (fun x => F (child x)) ms (max maxEval ev) :=
            IH.2.2 har hrb
          refine le_antisymm ?_ (le_trans hwmono (le_of_eq hrw'.symm))
          rcases max_choice (max maxEval ev) (foldlMax (fun x => F (child x)) ms ⊥) with h | h
          · exfalso
            have : r ≤ alpha := by
              rw [hrw', hSdec, h]
              exact le_trans hma' (le_of_eq halpha')
            exact absurd (lt_of_lt_of_le har this) (lt_irrefl alpha)
          · rw [hrw', hSdec, h, hSdec']
            exact le_max_right _ _
      · have hAev : alpha < ev := not_le.mp hevA
        have hevb : ev < beta := lt_of_le_of_lt (le_max_right alpha ev) hab'
        have hevFm : ev = Fm := hspec.2.2 hAev hevb
        have hww : foldlMax (fun x => F (child x)) ms (max maxEval Fm) =
            foldlMax (fun x => F (child x)) ms (max maxEval ev) := by rw [hevFm]
        rw [hww]
        refine ⟨?_, IH.2.1, ?_⟩
        · intro hra
          exact IH.1 (le_trans hra (le_max_left _ _))
        · intro har hrb
          by_cases hra' : max alpha ev < r
          · exact IH.2.2 hra' hrb
          · have h2 : r ≤ max alpha ev := not_lt.mp hra'
            have h3 : max alpha ev ≤ max maxEval ev := by
              have : ev ≤ max maxEval ev := le_max_right _ _
              rcases max_choice alpha ev with h | h
              · exfalso
                have : max alpha ev ≤ alpha := le_of_eq h
                exact absurd (lt_of_lt_of_le (lt_of_lt_of_le har h2) this)
                  (lt_irrefl alpha)
              · rw [h]; exact this
            have h1 : max maxEval ev ≤ r := le_maximizingLoop _ _ _ _ _ _
            have hrm : r = max maxEval ev := le_antisymm (le_trans h2 h3) h1
            have hwr := IH.1 h2
            refine le_antisymm ?_ hwr
            rw [hrm]
            exact le_foldlMax _ _ _

theorem minimizingLoop_spec (rec : P → Score → Score → Score)
    (child : M → P) (F : P → Score) (alpha : Score)
    (hrec : ∀ p b, alpha < b → ABSpec (rec p alpha b) (F p) alpha b) :
    ∀ (l : List M) (minEval beta : Score), alpha < beta → beta ≤ minEval →
      ABSpec (minimizingLoop rec child l minEval alpha beta)
        (foldlMin (fun m => F (child m)) l minEval) alpha beta := by
  intro l
  induction l with
  | nil =>
    intro minEval beta _ _
    exact ⟨fun _ => le_rfl, fun _ => le_rfl, fun _ _ => rfl⟩
  | cons m ms ih =>
    intro minEval beta hab hbm
    have hspec := hrec (child m) beta hab
    set ev := rec (child m) alpha beta with hev_def
    set Fm := F (child m) with hFm_def
    have hw : foldlMin (fun x => F (child x)) (m :: ms) minEval =
        foldlMin (fun x => F (child x)) ms (min minEval Fm) := rfl
    rw [hw]
    show ABSpec
      (if min beta ev ≤ alpha then min minEval ev
        else minimizingLoop rec child ms (min minEval ev) alpha (min beta ev))
      (foldlMin (fun x => F (child x)) ms (min minEval Fm)) alpha beta
    by_cases hcut : min beta ev ≤ alpha
    · rw [if_pos hcut]
      have haev : ev ≤ alpha := by
        rcases min_le_iff.mp hcut with h | h
        · exact absurd h (not_le.mpr hab)
        · exact h
      have hFmev : Fm ≤ ev := hspec.1 haev
      refine ⟨?_, ?_, ?_⟩
      · intro _
        calc foldlMin (fun x => F (child x)) ms (min minEval Fm)
            ≤ min minEval Fm := foldlMin_le _ _ _
        _ ≤ min minEval ev := min_le_min le_rfl hFmev
      · intro hbr
        exact absurd (lt_of_lt_of_le hab
          (le_trans hbr (le_trans (min_le_right _ _) haev))) (lt_irrefl alpha)
      · intro har _
        exact absurd (lt_of_lt_of_le har (le_trans (min_le_right minEval ev) haev))
          (lt_irrefl alpha)
    · rw [if_neg hcut]
      have hab' : alpha < min beta ev := not_le.mp hcut
      have hbm' : min beta ev ≤ min minEval ev := min_le_min hbm le_rfl
      have IH := ih (min minEval ev) (min beta ev) hab' hbm'
      set r := minimizingLoop rec child ms (min minEval ev) alpha (min beta ev)
        with hr_def
      have hSdec : foldlMin (fun x => F (child x)) ms (min minEval ev) =
          min (min minEval ev) (foldlMin (fun x => F (child x)) ms ⊤) :=
        foldlMin_decomp _ _ _
      have hSdec' : foldlMin (fun x => F (child x)) ms (min minEval Fm) =
          min (min minEval Fm) (foldlMin (fun x => F (child x)) ms ⊤) :=
        foldlMin_decomp _ _ _
      by_cases hevB : beta ≤ ev
      · have hEvFm : ev ≤ Fm := hspec.2.1 hevB
        have hbeta' : min beta ev = beta := min_eq_left hevB
        rw [hbeta'] at IH
        have hwmono : foldlMin (fun x => F (child x)) ms (min minEval ev) ≤
            foldlMin (fun x => F (child x)) ms (min minEval Fm) :=
          foldlMin_mono _ _ (min_le_min le_rfl hEvFm)
        refine ⟨?_, ?_, ?_⟩
        · intro hra
          have hrw : min (min minEval ev) (foldlMin (fun x => F (child x)) ms ⊤) ≤ r :=
            hSdec ▸ IH.1 hra
          have hnot : ¬ min minEval ev ≤ r := by
            intro h
            have hbmin : beta ≤ min minEval ev := hbeta' ▸ hbm'
            exact absurd (le_trans hbmin (le_trans h hra)) (not_le.mpr hab)
          have hSr : foldlMin (fun x => F (child x)) ms ⊤ ≤ r :=
            (min_le_iff.mp hrw).resolve_left hnot
          rw [hSdec']
          exact le_trans (min_le_right _ _) hSr
        · intro hbr
          exact le_trans (IH.2.1 hbr) hwmono
        · intro har hrb
          have hrw' : r = foldlMin (fun x => F (child x)) ms (min minEval ev) :=
            IH.2.2 har hrb
          refine le_antisymm (le_trans (le_of_eq hrw') hwmono) ?_
          rcases min_choice (min minEval ev) (foldlMin (fun x => F (child x)) ms ⊤)
            with h | h
          · exfalso
            have : beta ≤ r := by
              rw [hrw', hSdec, h]
              exact le_trans (le_of_eq hbeta'.symm) hbm'
            exact absurd (lt_of_le_of_lt this hrb) (lt_irrefl beta)
          · rw [hrw', hSdec, h, hSdec']
            exact min_le_right _ _
      · have hevb : ev < beta := not_le.mp hevB
        have haev : alpha < ev := lt_of_lt_of_le hab' (min_le_right beta ev)
        have hevFm : ev = Fm := hspec.2.2 haev hevb
        have hww : foldlMin (fun x => F (child x)) ms (min minEval Fm) =
            foldlMin (fun x => F (child x)) ms (min minEval ev) := by rw [hevFm]
        rw [hww]
        refine ⟨IH.1, ?_, ?_⟩
        · intro hbr
          exact IH.2.1 (le_trans (min_le_left _ _) hbr)
        · intro har hrb
          by_cases hrb' : r < min beta ev
          · exact IH.2.2 har hrb'
          · have h2 : min beta ev ≤ r := not_lt.mp hrb'
            have h3 : min minEval ev ≤ min beta ev := by
              rcases min_choice beta ev with h | h
              · exfalso
                have : beta ≤ min beta ev := le_of_eq h.symm
                exact absurd (lt_of_le_of_lt (le_trans this h2) hrb) (lt_irrefl beta)
              · rw [h]; exact min_le_right _ _
            have h1 : r ≤ min minEval ev := minimizingLoop_le _ _ _ _ _ _
            have hrm : r = min minEval ev := le_antisymm h1 (le_trans h3 h2)
            have hwr := IH.2.1 h2
            refine le_antisymm hwr ?_
            rw [hrm]
            exact foldlMin_le _ _ _

/-- Fail-soft alpha-beta correctness of `minimax` against the pruning-free
`fullMinimax`, for every window with `alpha < beta`. -/
theorem minimax_spec (R : Rules P M) :
    ∀ (d : Nat) (b : P) (alpha beta : Score) (m : Bool), alpha < beta →
      ABSpec (minimax R b d alpha beta m) (fullMinimax R b d m) alpha beta := by
  intro d
  induction d with
  | zero =>
    intro b alpha beta m _
    exact ⟨fun _ => le_rfl, fun _ => le_rfl, fun _ _ => rfl⟩
  | succ d ih =>
    intro b alpha beta m hab
    simp only [minimax, fullMinimax]
    split
    · exact ⟨fun _ => le_rfl, fun _ => le_rfl, fun _ _ => rfl⟩
    · cases m with
      | true =>
        simp only [if_pos rfl]
        exact maximizingLoop_spec _ (R.push b) (fun p => fullMinimax R p d false)
          beta (fun p a ha => ih p a beta false ha) (R.legal_moves b) ⊥ alpha hab
          bot_le
      | false =>
        rw [if_neg Bool.false_ne_true, if_neg Bool.false_ne_true]
        exact minimizingLoop_spec _ (R.push b) (fun p => fullMinimax R p d true)
          alpha (fun p bb hb => ih p alpha bb true hb) (R.legal_moves b) ⊤ beta
          hab le_top

/-- C1: for every position, every non-negative depth, and every maximizing
flag `m`, `minimax pos depth (-inf) (+inf) m` returns the same score as the
pruning-free full minimax of the same depth over the identical legal-move
enumeration: starting from the full window, the `beta ≤ alpha` cutoffs
never change the returned value. -/
theorem minimax_full_window_eq_fullMinimax (R : Rules P M) (pos : P)
    (depth : Nat) (m : Bool) :
    minimax R pos depth ⊥ ⊤ m = fullMinimax R pos depth m := by
  have h := minimax_spec R depth pos ⊥ ⊤ m bot_lt_top
  by_cases hrb : minimax R pos depth ⊥ ⊤ m ≤ ⊥
  · have h1 : minimax R pos depth ⊥ ⊤ m = ⊥ := le_bot_iff.mp hrb
    have h2 : fullMinimax R pos depth m = ⊥ := le_bot_iff.mp (h1 ▸ h.1 hrb)
    rw [h1, h2]
  · by_cases hrt : (⊤ : Score) ≤ minimax R pos depth ⊥ ⊤ m
    · have h1 : minimax R pos depth ⊥ ⊤ m = ⊤ := top_le_iff.mp hrt
      have h2 : fullMinimax R pos depth m = ⊤ := top_le_iff.mp (h1 ▸ h.2.1 hrt)
      rw [h1, h2]
    · exact h.2.2 (not_le.mp hrb) (not_le.mp hrt)

/-- A score is finite when it is an actual integer, neither `-inf` nor
`+inf`. -/
def IsVal (s : Score) : Prop := ∃ z : ℤ, s = toScore z

theorem isVal_max {s t : Score} (hs : IsVal s) (ht : IsVal t) :
    IsVal (max s t) := by
  rcases max_choice s t with h | h <;> rw [h]
  · exact hs
  · exact ht

theorem isVal_min {s t : Score} (hs : IsVal s) (ht : IsVal t) :
    IsVal (min s t) := by
  rcases min_choice s t with h | h <;> rw [h]
  · exact hs
  · exact ht

theorem maximizingLoop_isVal (rec : P → Score → Score → Score)
    (child : M → P) (hrec : ∀ p a b, IsVal (rec p a b)) :
    ∀ (l : List M) (maxEval alpha beta : Score),
      (IsVal maxEval ∨ (maxEval = ⊥ ∧ l ≠ [])) →
      IsVal (maximizingLoop rec child l maxEval alpha beta) := by
  intro l
  induction l with
  | nil =>
    intro maxEval alpha beta h
    rcases h with h | ⟨_, h⟩
    · exact h
    · exact absurd rfl h
  | cons m ms ih =>
    intro maxEval alpha beta h
    have hval : IsVal (max maxEval (rec (child m) alpha beta)) := by
      rcases h with h | ⟨h, _⟩
      · exact isVal_max h (hrec _ _ _)
      · rw [h, max_eq_right bot_le]
        exact hrec _ _ _
    show IsVal (if _ ≤ _ then _ else _)
    split
    · exact hval
    · exact ih _ _ _ (Or.inl hval)

theorem minimizingLoop_isVal (rec : P → Score → Score → Score)
    (child : M → P) (hrec : ∀ p a b, IsVal (rec p a b)) :
    ∀ (l : List M) (minEval alpha beta : Score),
      (IsVal minEval ∨ (minEval = ⊤ ∧ l ≠ [])) →
      IsVal (minimizingLoop rec child l minEval alpha beta) := by
  intro l
  induction l with
  | nil =>
    intro minEval alpha beta h
    rcases h with h | ⟨_, h⟩
    · exact h
    · exact absurd rfl h
  | cons m ms ih =>
    intro minEval alpha beta h
    have hval : IsVal (min minEval (rec (child m) alpha beta)) := by
      rcases h with h | ⟨h, _⟩
      · exact isVal_min h (hrec _ _ _)
      · rw [h, min_eq_right le_top]
        exact hrec _ _ _
    show IsVal (if _ ≤ _ then _ else _)
    split
    · exact hval
    · exact ih _ _ _ (Or.inl hval)

/-- Under the oracle contract that a position that is not game-over has at
least one legal move (true of chess: no legal moves means checkmate or
stalemate), `minimax` always returns a finite score, never `±inf`. -/
theorem minimax_isVal (R : Rules P M)
    (H : ∀ p, R.is_game_over p = false → R.legal_moves p ≠ []) :
    ∀ (d : Nat) (b : P) (alpha beta : Score) (m : Bool),
      IsVal (minimax R b d alpha beta m) := by
  intro d
  induction d with
  | zero => intro b alpha beta m; exact ⟨evaluate_board R b, rfl⟩
  | succ d ih =>
    intro b alpha beta m
    simp only [minimax]
    split
    · exact ⟨evaluate_board R b, rfl⟩
    · rename_i hgo
      have hne : R.legal_moves b ≠ [] := H b (Bool.not_eq_true _ ▸ hgo)
      cases m with
      | true =>
        rw [if_pos rfl]
        exact maximizingLoop_isVal _ _ (fun p a bb => ih p a bb false) _ _ _ _
          (Or.inr ⟨rfl, hne⟩)
      | false =>
        rw [if_neg Bool.false_ne_true]
        exact minimizingLoop_isVal _ _ (fun p a bb => ih p a bb true) _ _ _ _
          (Or.inr ⟨rfl, hne⟩)

/-- The comparison used by `make_best_move`'s selection condition
`(side == WHITE and value > best) or (side == BLACK and value < best)`:
for the maximizing side strict `>` of the new value over the best, for
the minimizing side strict `<`. -/
def sideLt (side : Bool) (a b : Score) : Bool :=
  if side then decide (a < b) else decide (b < a)

/-- Pure form of the root selection loop: fold over the root moves keeping
`(best, bestValue)` and replacing them exactly when the new score strictly
improves `bestValue` in the side's direction. -/
def selectLoop (ltt : Score → Score → Bool) (f : M → Score) :
    List M → Option M → Score → Option M × Score
  | [], best, bestValue => (best, bestValue)
  | m :: moves, best, bestValue =>
    if ltt bestValue (f m) then selectLoop ltt f moves (some m) (f m)
    else selectLoop ltt f moves best bestValue

theorem bestLoopSt_eq (R : Rules P M) (side : Bool) (d : Nat)
    (σ : BoardState P) :
    ∀ (l : List M) (best : Option M) (bv : Score),
      bestLoopSt R side d σ l best bv =
        (selectLoop (sideLt side)
          (fun m => minimax R (R.push σ.cur m) d ⊥ ⊤ (!side)) l best bv, σ) := by
  intro l
  induction l with
  | nil => intro best bv; rfl
  | cons m ms ih =>
    intro best bv
    have hcond : ((side && decide (bv < minimax R (R.push σ.cur m) d ⊥ ⊤ (!side)))
        || (!side && decide (minimax R (R.push σ.cur m) d ⊥ ⊤ (!side) < bv)))
        = sideLt side bv (minimax R (R.push σ.cur m) d ⊥ ⊤ (!side)) := by
      cases side <;> simp [sideLt]
    simp only [bestLoopSt, selectLoop, minimaxSt_eq, popSt_pushSt, pushSt, hcond]
    split
    · exact ih _ _
    · exact ih _ _

/-- Closed form of `make_best_move`: the Python return value is `None` on
every path, and the final board is the entry board with the selected move
pushed when the selection loop found one. -/
theorem make_best_move_eq (R : Rules P M) (σ : BoardState P) (depth : Nat)
    (side : Bool) :
    make_best_move R σ depth side =
      if R.is_game_over σ.cur then (none, σ)
      else
        match (selectLoop (sideLt side)
            (fun m => minimax R (R.push σ.cur m) (depth - 1) ⊥ ⊤ (!side))
            (R.legal_moves σ.cur) none (if side then ⊥ else ⊤)).1 with
        | some mv => (none, pushSt R σ mv)
        | none => (none, σ) := by
  unfold make_best_move
  by_cases hgo : R.is_game_over σ.cur = true
  · rw [if_pos hgo, if_pos hgo]
  · rw [if_neg hgo, if_neg hgo]
    simp only [bestLoopSt_eq]

theorem selectLoop_none (ltt : Score → Score → Bool) (f : M → Score) :
    ∀ (l : List M) (best : Option M) (bv : Score),
      (∀ m ∈ l, ltt bv (f m) = false) →
      selectLoop ltt f l best bv = (best, bv) := by
  intro l
  induction l with
  | nil => intro best bv _; rfl
  | cons m ms ih =>
    intro best bv h
    simp only [selectLoop]
    rw [if_neg (by rw [h m (List.mem_cons_self m ms)]; exact Bool.false_ne_true)]
    exact ih best bv (fun x hx => h x (List.mem_cons_of_mem m hx))

theorem selectLoop_found (ltt : Score → Score → Bool) (f : M → Score)
    (H1 : ∀ {a b c : Score}, ltt a b = true → ltt b c = true → ltt a c = true)
    (H2 : ∀ {a b c : Score}, ltt a b = false → ltt a c = true → ltt b c = true) :
    ∀ (l : List M) (best : Option M) (bv : Score),
      (∃ m ∈ l, ltt bv (f m) = true) →
      ∃ l1 m l2, l = l1 ++ m :: l2 ∧
        selectLoop ltt f l best bv = (some m, f m) ∧
        ltt bv (f m) = true ∧
        (∀ x ∈ l1, ltt (f x) (f m) = true) ∧
        (∀ x ∈ l2, ltt (f m) (f x) = false) := by
  intro l
  induction l with
  | nil => intro best bv h; simp at h
  | cons m0 ms ih =>
    intro best bv h
    by_cases h0 : ltt bv (f m0) = true
    · simp only [selectLoop, if_pos h0]
      by_cases hms : ∃ x ∈ ms, ltt (f m0) (f x) = true
      · obtain ⟨l1, m, l2, hsplit, hres, himp, hleft, hright⟩ :=
          ih (some m0) (f m0) hms
        exact ⟨m0 :: l1, m, l2, by rw [hsplit]; rfl, hres, H1 h0 himp,
          fun x hx => by
            rcases List.mem_cons.mp hx with hx | hx
            · rw [hx]; exact himp
            · exact hleft x hx,
          hright⟩
      · have hall : ∀ x ∈ ms, ltt (f m0) (f x) = false := fun x hx =>
          Bool.eq_false_iff.mpr (fun hcontra => hms ⟨x, hx, hcontra⟩)
        exact ⟨[], m0, ms, rfl, selectLoop_none ltt f ms (some m0) (f m0) hall,
          h0, fun x hx => by simp at hx, hall⟩
    · have h0' : ltt bv (f m0) = false := Bool.eq_false_iff.mpr h0
      simp only [selectLoop, if_neg h0]
      have hex : ∃ x ∈ ms, ltt bv (f x) = true := by
        obtain ⟨x, hx, hlt⟩ := h
        rcases List.mem_cons.mp hx with hx' | hx'
        · exact absurd (hx' ▸ hlt) h0
        · exact ⟨x, hx', hlt⟩
      obtain ⟨l1, m, l2, hsplit, hres, himp, hleft, hright⟩ := ih best bv hex
      exact ⟨m0 :: l1, m, l2, by rw [hsplit]; rfl, hres, himp,
        fun x hx => by
          rcases List.mem_cons.mp hx with hx' | hx'
          · rw [hx']; exact H2 h0' himp
          · exact hleft x hx',
        hright⟩

theorem sideLt_true_eq (a b : Score) : sideLt true a b = decide (a < b) := rfl

theorem sideLt_false_eq (a b : Score) : sideLt false a b = decide (b < a) := rfl

theorem sideLt_trans {side : Bool} {a b c : Score} (h1 : sideLt side a b = true)
    (h2 : sideLt side b c = true) : sideLt side a c = true := by
  cases side
  · rw [sideLt_false_eq] at h1 h2 ⊢
    exact decide_eq_true (lt_trans (of_decide_eq_true h2) (of_decide_eq_true h1))
  · rw [sideLt_true_eq] at h1 h2 ⊢
    exact decide_eq_true (lt_trans (of_decide_eq_true h1) (of_decide_eq_true h2))

theorem sideLt_of_not_of (side : Bool) {a b c : Score}
    (h1 : sideLt side a b = false) (h2 : sideLt side a c = true) :
    sideLt side b c = true := by
  cases side
  · rw [sideLt_false_eq] at h1 ⊢
    rw [sideLt_false_eq] at h2
    exact decide_eq_true
      (lt_of_lt_of_le (of_decide_eq_true h2) (not_lt.mp (of_decide_eq_false h1)))
  · rw [sideLt_true_eq] at h1 ⊢
    rw [sideLt_true_eq] at h2
    exact decide_eq_true
      (lt_of_le_of_lt (not_lt.mp (of_decide_eq_false h1)) (of_decide_eq_true h2))

/-- C2: after `minimax` returns, the board state is identical to its state
on entry — every speculative push, including those on pruned branches, is
matched by a pop — and after `make_best_move` returns, the board differs
from its entry state by at most the single committed best move. -/
theorem search_preserves_board (R : Rules P M) (σ : BoardState P) (d : Nat)
    (alpha beta : Score) (m : Bool) (depth : Nat) (side : Bool) :
    (minimaxSt R σ d alpha beta m).2 = σ ∧
      ((make_best_move R σ depth side).2 = σ ∨
        ∃ mv, (make_best_move R σ depth side).2 = pushSt R σ mv) := by
  refine ⟨by rw [minimaxSt_eq], ?_⟩
  rw [make_best_move_eq]
  by_cases hgo : R.is_game_over σ.cur = true
  · rw [if_pos hgo]
    exact Or.inl rfl
  · rw [if_neg hgo]
    cases hsel : (selectLoop (sideLt side)
        (fun x => minimax R (R.push σ.cur x) (depth - 1) ⊥ ⊤ (!side))
        (R.legal_moves σ.cur) none (if side then ⊥ else ⊤)).1 with
    | none => exact Or.inl rfl
    | some mv => exact Or.inr ⟨mv, rfl⟩

/-- C3: if the depth is zero, or the Rules Oracle reports the game over,
`minimax` returns exactly the static evaluation of the position,
regardless of the remaining depth and of the window values. -/
theorem minimax_terminal (R : Rules P M) (pos : P) (depth : Nat)
    (alpha beta : Score) (m : Bool)
    (h : depth = 0 ∨ R.is_game_over pos = true) :
    minimax R pos depth alpha beta m = toScore (evaluate_board R pos) := by
  cases depth with
  | zero => rfl
  | succ d =>
    rcases h with h | h
    · exact absurd h (Nat.succ_ne_zero d)
    · simp only [minimax, if_pos h]

/-- Witness for C3 at concrete inputs: a depth-0 call on a one-pawn toy
board, and a deep call on a game-over (empty) toy board. -/
theorem minimax_terminal_witness :
    minimax toyRules [wPawn] 0 ⊥ ⊤ true = toScore (evaluate_board toyRules [wPawn]) ∧
    minimax toyRules [] 5 (toScore 2) (toScore 7) false =
      toScore (evaluate_board toyRules []) :=
  ⟨minimax_terminal toyRules [wPawn] 0 ⊥ ⊤ true (Or.inl rfl),
    minimax_terminal toyRules [] 5 (toScore 2) (toScore 7) false (Or.inr rfl)⟩

/-- The spec's fixed material table (§4.1): pawn=1, knight=3, bishop=3,
rook=5, queen=9, king=0.  Spec-side definition, for comparison with the
code's `piece_value`. -/
def specMaterialValue : PieceType → ℤ
  | .pawn => 1
  | .knight => 3
  | .bishop => 3
  | .rook => 5
  | .queen => 9
  | .king => 0

/-- Spec-side evaluator (§4.1): the sum, over every piece currently on the
board, of its fixed material value, the term negated when the piece
belongs to the second player. -/
def specEvaluate (pieces : List Piece) : ℤ :=
  (pieces.map (fun p =>
    if p.color = true then specMaterialValue p.piece_type
    else -(specMaterialValue p.piece_type))).sum

/-- C4: `evaluate_board` sums, over every piece on the board, the fixed
material value pawn=1, knight=3, bishop=3, rook=5, queen=9, king=0, each
term negated when the piece belongs to the second player; as a Lean
function it is total and side-effect-free. -/
theorem evaluate_board_is_material_sum (R : Rules P M) (pos : P) :
    evaluate_board R pos = specEvaluate (R.piece_map pos) := by
  unfold evaluate_board specEvaluate
  have hp : ∀ p : Piece, piece_value p =
      (if p.color = true then specMaterialValue p.piece_type
        else -(specMaterialValue p.piece_type)) := by
    rintro ⟨t, c⟩
    cases c <;> cases t <;> decide
  rw [funext hp]

/-- C5 counterexample: on a concrete toy position a best move IS found and
committed — the returned board is the entry board with move 1 (capturing
the black queen) pushed — yet the function's returned value is `none`, not
the chosen move: `make_best_move` returns `None` on every Python path. -/
theorem make_best_move_return_counterexample :
    (make_best_move toyRules ⟨[wPawn, bQueen], []⟩ 1 true).2 =
        pushSt toyRules ⟨[wPawn, bQueen], []⟩ 1 ∧
      (make_best_move toyRules ⟨[wPawn, bQueen], []⟩ 1 true).1 = none := by
  constructor <;> decide

/-- C5 (amended): `make_best_move` returns nothing (`None`) on every path,
also when a best move is found; finding a move shows up only in the side
effect of pushing it onto the board. -/
theorem make_best_move_returns_none (R : Rules P M) (σ : BoardState P)
    (depth : Nat) (side : Bool) :
    (make_best_move R σ depth side).1 = none := by
  rw [make_best_move_eq]
  split
  · rfl
  · split <;> rfl

/-- C6: `make_best_move` commits exactly the move returned by its
selection loop; a move is kept only if its searched score strictly
improves `best_value` in the side's direction (`>` for the maximizing
side, `<` for the minimizing side), so the returned move strictly beats
the `∓inf` initialization, every earlier move in Rules-Oracle order scores
strictly worse, and no later move scores strictly better — on ties the
first move encountered is kept. -/
theorem make_best_move_selection_rule (R : Rules P M) (σ : BoardState P)
    (depth : Nat) (side : Bool) (hgo : R.is_game_over σ.cur = false) :
    ((make_best_move R σ depth side).2 =
      match (selectLoop (sideLt side)
          (fun m => minimax R (R.push σ.cur m) (depth - 1) ⊥ ⊤ (!side))
          (R.legal_moves σ.cur) none (if side then ⊥ else ⊤)).1 with
        | some mv => pushSt R σ mv
        | none => σ) ∧
    ∀ mv, (selectLoop (sideLt side)
        (fun m => minimax R (R.push σ.cur m) (depth - 1) ⊥ ⊤ (!side))
        (R.legal_moves σ.cur) none (if side then ⊥ else ⊤)).1 = some mv →
      sideLt side (if side then ⊥ else ⊤)
          (minimax R (R.push σ.cur mv) (depth - 1) ⊥ ⊤ (!side)) = true ∧
      ∃ l1 l2, R.legal_moves σ.cur = l1 ++ mv :: l2 ∧
        (∀ x ∈ l1, sideLt side (minimax R (R.push σ.cur x) (depth - 1) ⊥ ⊤ (!side))
          (minimax R (R.push σ.cur mv) (depth - 1) ⊥ ⊤ (!side)) = true) ∧
        (∀ x ∈ l2, sideLt side (minimax R (R.push σ.cur mv) (depth - 1) ⊥ ⊤ (!side))
          (minimax R (R.push σ.cur x) (depth - 1) ⊥ ⊤ (!side)) = false) := by
  constructor
  · rw [make_best_move_eq,
      if_neg (by rw [hgo]; exact Bool.false_ne_true)]
    cases hsel : (selectLoop (sideLt side)
        (fun m => minimax R (R.push σ.cur m) (depth - 1) ⊥ ⊤ (!side))
        (R.legal_moves σ.cur) none (if side then ⊥ else ⊤)).1 <;> rfl
  · intro mv hsel
    by_cases hex : ∃ x ∈ R.legal_moves σ.cur,
        sideLt side (if side then ⊥ else ⊤)
          ((fun m => minimax R (R.push σ.cur m) (depth - 1) ⊥ ⊤ (!side)) x) = true
    · obtain ⟨l1, m, l2, hsplit, hres, himp, hleft, hright⟩ :=
        selectLoop_found (sideLt side)
          (fun m => minimax R (R.push σ.cur m) (depth - 1) ⊥ ⊤ (!side))
          (fun h1 h2 => sideLt_trans h1 h2)
          (fun h1 h2 => sideLt_of_not_of side h1 h2)
          (R.legal_moves σ.cur) none (if side then ⊥ else ⊤) hex
      rw [hres] at hsel
      have hmv : m = mv := Option.some.inj hsel
      subst hmv
      exact ⟨himp, l1, l2, hsplit, hleft, hright⟩
    · have hall : ∀ x ∈ R.legal_moves σ.cur,
          sideLt side (if side then ⊥ else ⊤)
            ((fun m => minimax R (R.push σ.cur m) (depth - 1) ⊥ ⊤ (!side)) x) = false :=
        fun x hx => Bool.eq_false_iff.mpr (fun hc => hex ⟨x, hx, hc⟩)
      rw [selectLoop_none _ _ _ _ _ hall] at hsel
      exact Option.noConfusion hsel

/-- Witness for C6 on the toy oracle: from the two-piece board the
maximizing side commits root move 1 (capturing the black queen), and that
move's score strictly improves the `-inf` initialization. -/
theorem make_best_move_selection_rule_witness :
    (make_best_move toyRules ⟨[wPawn, bQueen], []⟩ 1 true).2 =
        pushSt toyRules ⟨[wPawn, bQueen], []⟩ 1 ∧
      sideLt true (if true then ⊥ else ⊤)
        (minimax toyRules
          (toyRules.push (BoardState.cur ⟨[wPawn, bQueen], []⟩) 1) 0 ⊥ ⊤ false)
        = true :=
  have h := make_best_move_selection_rule toyRules ⟨[wPawn, bQueen], []⟩ 1 true
    (by decide)
  ⟨h.1.trans (by decide), (h.2 1 (by decide)).1⟩

/-- C7: when the Rules Oracle reports the game already over,
`make_best_move` returns nothing and performs no mutation: the board state
is returned unchanged. -/
theorem make_best_move_game_over (R : Rules P M) (σ : BoardState P)
    (depth : Nat) (side : Bool) (h : R.is_game_over σ.cur = true) :
    make_best_move R σ depth side = (none, σ) := by
  unfold make_best_move
  rw [if_pos h]

/-- Witness for C7: the empty toy board is game over, and the selector
leaves it untouched and returns nothing. -/
theorem make_best_move_game_over_witness :
    make_best_move toyRules ⟨[], []⟩ 4 false = (none, ⟨[], []⟩) :=
  make_best_move_game_over toyRules ⟨[], []⟩ 4 false rfl

/-- Swap the colour of one piece (the colour-swapped position of C8). -/
def swapColors (p : Piece) : Piece := ⟨p.piece_type, !p.color⟩

/-- C8: evaluating the position whose pieces are those of `pos` with all
colours swapped yields the negation of evaluating `pos`. -/
theorem evaluate_board_color_symm (R : Rules P M) (pos pos' : P)
    (h : R.piece_map pos' = (R.piece_map pos).map swapColors) :
    evaluate_board R pos' = -evaluate_board R pos := by
  unfold evaluate_board
  rw [h]
  induction R.piece_map pos with
  | nil => simp
  | cons p ps ih =>
    have hswap : piece_value (swapColors p) = -piece_value p := by
      rcases p with ⟨t, c⟩
      cases c <;> cases t <;> decide
    simp only [List.map_cons, List.sum_cons, ih, hswap]
    ring

/-- Witness for C8: a lone white pawn against a lone black pawn. -/
theorem evaluate_board_color_symm_witness :
    evaluate_board toyRules [⟨.pawn, false⟩] = -evaluate_board toyRules [wPawn] :=
  evaluate_board_color_symm toyRules [wPawn] [⟨.pawn, false⟩] (by decide)

/-- C9: `minimax` is a total function of every position and non-negative
depth: the (terminating, total) Lean function satisfies the source
recursion — evaluate at `depth == 0` or game over, otherwise recurse over
the legal moves at `depth - 1` — so the recursion bottoms out at the
depth-0 or game-over base case with no failure modes. -/
theorem minimax_total_recurrence (R : Rules P M) (pos : P) (depth : Nat)
    (alpha beta : Score) (m : Bool) :
    minimax R pos depth alpha beta m =
      if (depth == 0) || R.is_game_over pos then toScore (evaluate_board R pos)
      else if m then
        maximizingLoop (fun p a b => minimax R p (depth - 1) a b false)
          (R.push pos) (R.legal_moves pos) ⊥ alpha beta
      else
        minimizingLoop (fun p a b => minimax R p (depth - 1) a b true)
          (R.push pos) (R.legal_moves pos) ⊤ alpha beta := by
  cases depth <;> rfl

/-- C10: under the oracle contract that a non-game-over position has at
least one legal move, `make_best_move` on a position where the game is not
over always commits exactly one move: the first root move's finite score
strictly improves the `∓inf` initialization, so a best move is found and
pushed. -/
theorem make_best_move_always_commits (R : Rules P M)
    (H : ∀ p, R.is_game_over p = false → R.legal_moves p ≠ [])
    (σ : BoardState P) (depth : Nat) (side : Bool)
    (hgo : R.is_game_over σ.cur = false) :
    ∃ mv, (make_best_move R σ depth side).2 = pushSt R σ mv := by
  obtain ⟨m0, ms, hl⟩ := List.exists_cons_of_ne_nil (H σ.cur hgo)
  obtain ⟨z, hz⟩ := minimax_isVal R H (depth - 1) (R.push σ.cur m0) ⊥ ⊤ (!side)
  have himp : sideLt side (if side then ⊥ else ⊤)
      (minimax R (R.push σ.cur m0) (depth - 1) ⊥ ⊤ (!side)) = true := by
    cases side
    · rw [if_neg Bool.false_ne_true, sideLt_false_eq, hz]
      exact decide_eq_true (toScore_lt_top z)
    · rw [if_pos rfl, sideLt_true_eq, hz]
      exact decide_eq_true (bot_lt_toScore z)
  have hex : ∃ x ∈ R.legal_moves σ.cur,
      sideLt side (if side then ⊥ else ⊤)
        ((fun m => minimax R (R.push σ.cur m) (depth - 1) ⊥ ⊤ (!side)) x) = true :=
    ⟨m0, by rw [hl]; exact List.mem_cons_self m0 ms, himp⟩
  obtain ⟨l1, m, l2, _, hres, _, _, _⟩ :=
    selectLoop_found (sideLt side)
      (fun m => minimax R (R.push σ.cur m) (depth - 1) ⊥ ⊤ (!side))
      (fun h1 h2 => sideLt_trans h1 h2)
      (fun h1 h2 => sideLt_of_not_of side h1 h2)
      (R.legal_moves σ.cur) none (if side then ⊥ else ⊤) hex
  refine ⟨m, ?_⟩
  rw [make_best_move_eq, if_neg (by rw [hgo]; exact Bool.false_ne_true), hres]

/-- Witness for C10: the toy oracle satisfies the contract (a non-empty
board has a removal move), and from a one-pawn board a move is committed. -/
theorem make_best_move_always_commits_witness :
    ∃ mv, (make_best_move toyRules ⟨[wPawn], []⟩ 3 true).2 =
      pushSt toyRules ⟨[wPawn], []⟩ mv :=
  make_best_move_always_commits toyRules
    (fun p hp hr => by
      have h1 : p.length = 0 := List.range_eq_nil.mp hr
      have h2 : p = [] := List.length_eq_zero.mp h1
      rw [h2] at hp
      exact absurd hp (by decide))
    ⟨[wPawn], []⟩ 3 true rfl
